import Mathlib

/-!
# Verification of the heckla static-site builder (`build.py`)

A shallow embedding of the routing and index-synthesis pipeline of
`build.py`, together with theorems about the behaviour claimed by the
design document.

Modelling conventions:
* A path relative to the content root is a pair `(dirs, name)`: the list of
  directory components (`rel.parent`) and the filename component.
  Components are nonempty strings not containing `'/'`; theorems that need
  this carry it as an explicit well-formedness hypothesis.
* `pathlib` paths are rendered with POSIX (forward-slash) separators, as on
  the system the builder targets; `str(Path(...))` of a relative path is
  the `"/"`-join of its components.
* Output locations are given as component lists relative to `DIST_DIR`
  (every output of the build lives under `DIST_DIR`).
-/

namespace Heckla

/-- Index (from the front) of the last `'.'` in a list of characters,
`none` if there is no dot.  Models Python's `name.rfind('.')` (restricted
to the found case). -/
def lastDot : List Char → Option Nat
  | [] => none
  | c :: cs =>
    match lastDot cs with
    | some i => some (i + 1)
    | none => if c = '.' then some 0 else none

/-- Python `PurePath.with_suffix("")` on a filename (also `PurePath.stem`):
drop the final suffix.  The suffix is `name[i:]` for `i` the index of the
last dot, provided `0 < i < len(name) - 1`; otherwise the suffix is empty
and the name is unchanged. -/
def stripExt (name : String) : String :=
  match lastDot name.data with
  | some i => if 0 < i ∧ i + 1 < name.data.length then ⟨name.data.take i⟩ else name
  | none => name

/-- `str(...)` of a relative `PosixPath` with the given components:
the components joined by `"/"`. -/
def joinPath : List String → String
  | [] => ""
  | [c] => c
  | c :: rest => c ++ "/" ++ joinPath rest

/-- The routing rules of the parse-phase loop (`build.py` lines 131–139).
Input: the path of a content file relative to `CONTENT_DIR`, split into
directory components `dirs` (= `rel.parent`) and filename `name`.
Output: the output directory as components relative to `DIST_DIR`, and the
public URL.

```
if rel == Path("_index.md"):
    output_dir = DIST_DIR
    url = "/"
elif rel.name == "_index.md":
    output_dir = DIST_DIR / section
    url = f"/{section}/"
else:
    output_dir = DIST_DIR / rel.with_suffix("")
    url = f"/{rel.with_suffix('')}/"
```
-/
def route (dirs : List String) (name : String) : List String × String :=
  if dirs = [] ∧ name = "_index.md" then
    ([], "/")
  else if name = "_index.md" then
    (dirs, "/" ++ joinPath dirs ++ "/")
  else
    (dirs ++ [stripExt name], "/" ++ joinPath (dirs ++ [stripExt name]) ++ "/")

/-- Well-formedness of one path component: nonempty and free of the
separator character. -/
def GoodComp (c : String) : Prop := c ≠ "" ∧ '/' ∉ c.data

instance (c : String) : Decidable (GoodComp c) :=
  inferInstanceAs (Decidable (c ≠ "" ∧ '/' ∉ c.data))

/-- Scanner deciding that no two adjacent characters are both `'/'`. -/
def noDSB : List Char → Bool
  | c₁ :: c₂ :: cs => if c₁ = '/' ∧ c₂ = '/' then false else noDSB (c₂ :: cs)
  | _ => true

/-- A string contains no two adjacent slashes. -/
def NoDoubleSlash (s : String) : Prop := noDSB s.data = true

instance (s : String) : Decidable (NoDoubleSlash s) :=
  inferInstanceAs (Decidable (noDSB s.data = true))

theorem noDSB_iff_chain' :
    ∀ l : List Char, noDSB l = true ↔ l.Chain' fun a b => ¬(a = '/' ∧ b = '/')
  | [] => by simp [noDSB]
  | [a] => by simp [noDSB]
  | a :: b :: t => by
    rw [List.chain'_cons, ← noDSB_iff_chain' (b :: t)]
    by_cases h : a = '/' ∧ b = '/'
    · simp [noDSB, h]
    · simp [noDSB, h]

/-! ### Path algebra -/

theorem joinPath_cons (c : String) (rest : List String) (h : rest ≠ []) :
    joinPath (c :: rest) = c ++ "/" ++ joinPath rest := by
  cases rest with
  | nil => exact absurd rfl h
  | cons d t => rfl

theorem joinPath_data :
    ∀ comps : List String, (joinPath comps).data = ['/'].intercalate (comps.map String.data)
  | [] => by simp [joinPath, List.intercalate]
  | [c] => by simp [joinPath, List.intercalate]
  | c :: d :: t => by
    have ih := joinPath_data (d :: t)
    rw [joinPath_cons _ _ (by simp)]
    simp only [String.data_append, ih, List.map_cons, List.intercalate, List.intersperse,
      List.flatten]
    rw [List.append_assoc]

theorem mk_data (s : String) : (⟨s.data⟩ : String) = s := rfl

theorem string_ne_iff_data (s : String) : s ≠ "" ↔ s.data ≠ [] := by
  constructor
  · intro h hd
    exact h (String.ext hd)
  · intro h hs
    exact h (by rw [hs])

/-- `joinPath` is injective on nonempty lists of well-formed components. -/
theorem joinPath_inj {c₁ c₂ : List String} (h₁ : ∀ c ∈ c₁, GoodComp c)
    (h₂ : ∀ c ∈ c₂, GoodComp c) (hn₁ : c₁ ≠ []) (hn₂ : c₂ ≠ [])
    (h : joinPath c₁ = joinPath c₂) : c₁ = c₂ := by
  have hd : (joinPath c₁).data = (joinPath c₂).data := by rw [h]
  rw [joinPath_data, joinPath_data] at hd
  have hs₁ : (['/'].intercalate (c₁.map String.data)).splitOn '/' = c₁.map String.data :=
    List.splitOn_intercalate (c₁.map String.data) '/' (by
      intro l hl
      obtain ⟨c, hc, rfl⟩ := List.mem_map.mp hl
      exact (h₁ c hc).2) (by simpa using hn₁)
  have hs₂ : (['/'].intercalate (c₂.map String.data)).splitOn '/' = c₂.map String.data :=
    List.splitOn_intercalate (c₂.map String.data) '/' (by
      intro l hl
      obtain ⟨c, hc, rfl⟩ := List.mem_map.mp hl
      exact (h₂ c hc).2) (by simpa using hn₂)
  have hmaps : c₁.map String.data = c₂.map String.data := by
    rw [← hs₁, ← hs₂, hd]
  have hinj : Function.Injective String.data := fun a b hab => String.ext hab
  exact List.map_injective_iff.mpr hinj hmaps

theorem lastDot_append_md (l : List Char) :
    lastDot (l ++ ['.', 'm', 'd']) = some l.length := by
  induction l with
  | nil => decide
  | cons c t ih => simp [lastDot, ih]

/-- `with_suffix("")` strips exactly the `.md` extension from `<stem>.md`
(for a nonempty stem). -/
theorem stripExt_stem (s : String) (hs : s ≠ "") : stripExt (s ++ ".md") = s := by
  have hdata : (s ++ ".md").data = s.data ++ ['.', 'm', 'd'] := by
    rw [String.data_append]
  have hne : s.data ≠ [] := (string_ne_iff_data s).mp hs
  have hpos : 0 < s.data.length := List.length_pos.mpr hne
  have hlt : s.data.length + 1 < (s.data ++ ['.', 'm', 'd']).length := by
    simp
  unfold stripExt
  rw [hdata, lastDot_append_md]
  dsimp only
  rw [if_pos ⟨hpos, hlt⟩, List.take_left]

theorem route_root : route [] "_index.md" = ([], "/") := rfl

theorem route_index {dirs : List String} (h : dirs ≠ []) :
    route dirs "_index.md" = (dirs, "/" ++ joinPath dirs ++ "/") := by
  unfold route
  rw [if_neg (fun hc => h hc.1), if_pos rfl]

theorem route_leaf {dirs : List String} {name : String} (h : name ≠ "_index.md") :
    route dirs name
      = (dirs ++ [stripExt name], "/" ++ joinPath (dirs ++ [stripExt name]) ++ "/") := by
  unfold route
  rw [if_neg (fun hc => h hc.2), if_neg h]

theorem append_md_inj {s t : String} (h : s ++ ".md" = t ++ ".md") : s = t := by
  apply String.ext
  have hd := congrArg String.data h
  rw [String.data_append, String.data_append] at hd
  exact List.append_cancel_right hd

theorem index_name_iff (s : String) : s ++ ".md" = "_index.md" ↔ s = "_index" := by
  constructor
  · intro h
    exact append_md_inj (by rw [h]; rfl)
  · intro h
    rw [h]; rfl

/-! ### Shape of the generated URLs -/

theorem slash_wrap_data (a : String) :
    ("/" ++ a ++ "/").data = '/' :: (a.data ++ ['/']) := by
  rw [String.data_append, String.data_append]
  rfl

theorem slash_wrap_inj {a b : String} (h : "/" ++ a ++ "/" = "/" ++ b ++ "/") : a = b := by
  have hd := congrArg String.data h
  rw [slash_wrap_data, slash_wrap_data] at hd
  exact String.ext (List.append_cancel_right (List.cons_injective hd))

theorem slash_wrap_ne_root (a : String) : "/" ++ a ++ "/" ≠ "/" := by
  intro h
  have hd := congrArg String.data h
  rw [slash_wrap_data] at hd
  have := congrArg List.length hd
  simp at this

theorem head_ne_slash_append {l z : List Char} (hne : l ≠ []) (h : ∀ a ∈ l, a ≠ '/') :
    ∀ y ∈ (l ++ z).head?, y ≠ '/' := by
  cases l with
  | nil => exact absurd rfl hne
  | cons d ds =>
    intro y hy
    simp only [List.cons_append, List.head?_cons, Option.mem_def, Option.some.injEq] at hy
    subst hy
    exact h d (List.mem_cons_self _ _)

theorem goodComp_data {c : String} (hc : GoodComp c) : c.data ≠ [] ∧ ∀ a ∈ c.data, a ≠ '/' := by
  refine ⟨(string_ne_iff_data c).mp hc.1, ?_⟩
  intro a ha hs
  exact hc.2 (hs ▸ ha)

theorem joinPath_cons_data (c : String) (rest : List String) (h : rest ≠ []) :
    (joinPath (c :: rest)).data = c.data ++ '/' :: (joinPath rest).data := by
  rw [joinPath_cons _ _ h, String.data_append, String.data_append, List.append_assoc]
  rfl

theorem joinPath_head_ne_slash :
    ∀ {comps : List String}, (∀ c ∈ comps, GoodComp c) → comps ≠ [] →
      ∀ z : List Char, ∀ y ∈ ((joinPath comps).data ++ z).head?, y ≠ '/'
  | [], _, hn, _ => absurd rfl hn
  | c :: rest, hg, _, z => by
    have hc := goodComp_data (hg c (List.mem_cons_self _ _))
    cases rest with
    | nil => exact head_ne_slash_append hc.1 hc.2
    | cons d t =>
      rw [joinPath_cons_data _ _ (by simp), List.append_assoc]
      exact head_ne_slash_append hc.1 hc.2

theorem chain'_of_no_slash {l : List Char} (h : ∀ a ∈ l, a ≠ '/') :
    l.Chain' (fun a b => ¬(a = '/' ∧ b = '/')) := by
  induction l with
  | nil => simp
  | cons c t ih =>
    rw [List.chain'_cons']
    refine ⟨?_, ih fun a ha => h a (List.mem_cons_of_mem _ ha)⟩
    intro y _ hc
    exact h c (List.mem_cons_self _ _) hc.1

theorem chain'_append_no_slash {l tail : List Char} (h : ∀ a ∈ l, a ≠ '/')
    (ht : tail.Chain' (fun a b => ¬(a = '/' ∧ b = '/'))) :
    (l ++ tail).Chain' (fun a b => ¬(a = '/' ∧ b = '/')) := by
  rw [List.chain'_append]
  refine ⟨chain'_of_no_slash h, ht, ?_⟩
  intro x hx y _ hc
  exact h x (List.mem_of_mem_getLast? hx) hc.1

theorem chain'_joinPath_slash :
    ∀ comps : List String, (∀ c ∈ comps, GoodComp c) → comps ≠ [] →
      ((joinPath comps).data ++ ['/']).Chain' (fun a b => ¬(a = '/' ∧ b = '/'))
  | [], _, hn => absurd rfl hn
  | [c], hg, _ => by
    have hc := goodComp_data (hg c (List.mem_cons_self _ _))
    exact chain'_append_no_slash hc.2 (List.chain'_singleton '/')
  | c :: d :: t, hg, _ => by
    have hc := goodComp_data (hg c (List.mem_cons_self _ _))
    have ih := chain'_joinPath_slash (d :: t)
      (fun x hx => hg x (List.mem_cons_of_mem _ hx)) (by simp)
    rw [joinPath_cons_data _ _ (by simp), List.append_assoc, List.cons_append]
    apply chain'_append_no_slash hc.2
    rw [List.chain'_cons']
    refine ⟨?_, ih⟩
    intro y hy hcc
    exact joinPath_head_ne_slash
      (fun x hx => hg x (List.mem_cons_of_mem _ hx)) (by simp) ['/'] y hy hcc.2

theorem noDoubleSlash_url {comps : List String} (hg : ∀ c ∈ comps, GoodComp c)
    (hn : comps ≠ []) : NoDoubleSlash ("/" ++ joinPath comps ++ "/") := by
  unfold NoDoubleSlash
  rw [noDSB_iff_chain', slash_wrap_data, List.chain'_cons']
  refine ⟨?_, chain'_joinPath_slash comps hg hn⟩
  intro y hy hc
  exact joinPath_head_ne_slash hg hn ['/'] y hy hc.2

/-! ### URL components and the round trip -/

/-- The path components of a URL: split on `'/'` and drop empty segments. -/
def urlComps (u : String) : List String :=
  ((u.data.splitOn '/').filter (fun l => !l.isEmpty)).map fun l => ⟨l⟩

theorem intercalate_cons_ne_nil {a : List Char} {ls : List (List Char)} (h : ls ≠ []) :
    ['/'].intercalate (a :: ls) = a ++ '/' :: ['/'].intercalate ls := by
  cases ls with
  | nil => exact absurd rfl h
  | cons b t =>
    simp [List.intercalate, List.intersperse]

theorem intercalate_concat_nil :
    ∀ xs : List (List Char), xs ≠ [] →
      ['/'].intercalate (xs ++ [[]]) = ['/'].intercalate xs ++ ['/']
  | [], h => absurd rfl h
  | [x], _ => by
    rw [List.singleton_append, intercalate_cons_ne_nil (by simp)]
    simp [List.intercalate, List.intersperse]
  | x :: y :: t, _ => by
    have ih := intercalate_concat_nil (y :: t) (by simp)
    rw [List.cons_append, intercalate_cons_ne_nil (by simp),
      intercalate_cons_ne_nil (by simp), ih]
    simp

theorem url_data_intercalate {comps : List String} (hn : comps ≠ []) :
    ("/" ++ joinPath comps ++ "/").data
      = ['/'].intercalate ([] :: (comps.map String.data ++ [[]])) := by
  have hmn : comps.map String.data ≠ [] := by simpa using hn
  rw [slash_wrap_data, joinPath_data, ← intercalate_concat_nil _ hmn,
    intercalate_cons_ne_nil (by simp [hmn])]
  rfl

/-- Parsing the slash-separated components back out of a generated URL
recovers exactly the components that were joined. -/
theorem urlComps_url {comps : List String} (hg : ∀ c ∈ comps, GoodComp c)
    (hn : comps ≠ []) : urlComps ("/" ++ joinPath comps ++ "/") = comps := by
  unfold urlComps
  rw [url_data_intercalate hn]
  have hsplit : (['/'].intercalate ([] :: (comps.map String.data ++ [[]]))).splitOn '/'
      = [] :: (comps.map String.data ++ [[]]) := by
    apply List.splitOn_intercalate
    · intro l hl
      rcases List.mem_cons.mp hl with rfl | hl
      · simp
      rcases List.mem_append.mp hl with hl | hl
      · obtain ⟨c, hc, rfl⟩ := List.mem_map.mp hl
        exact (hg c hc).2
      · simp at hl
        subst hl
        simp
    · simp
  rw [hsplit]
  have hfilter : (([] :: (comps.map String.data ++ [[]])).filter (fun l => !l.isEmpty))
      = comps.map String.data := by
    rw [List.filter_cons_of_neg (by simp), List.filter_append,
      List.filter_cons_of_neg (by simp), List.filter_nil, List.append_nil]
    apply List.filter_eq_self.mpr
    intro l hl
    obtain ⟨c, hc, rfl⟩ := List.mem_map.mp hl
    simpa using (goodComp_data (hg c hc)).1
  rw [hfilter, List.map_map]
  have : (fun l : List Char => (⟨l⟩ : String)) ∘ String.data = id := by
    funext x
    rfl
  rw [this, List.map_id]

theorem slash_wrap_head (a : String) : ("/" ++ a ++ "/").data.head? = some '/' := by
  rw [slash_wrap_data]
  rfl

theorem slash_wrap_getLast (a : String) : ("/" ++ a ++ "/").data.getLast? = some '/' := by
  rw [slash_wrap_data, show ('/' :: (a.data ++ ['/'])) = ('/' :: a.data) ++ ['/'] by simp]
  exact List.getLast?_concat _

theorem concat_comp_inj {l₁ l₂ : List String} {a b : String}
    (h : l₁ ++ [a] = l₂ ++ [b]) : l₁ = l₂ ∧ a = b := by
  have hr := congrArg List.reverse h
  simp only [List.reverse_append, List.reverse_cons, List.reverse_nil, List.nil_append,
    List.singleton_append, List.cons.injEq] at hr
  exact ⟨List.reverse_injective hr.2, hr.1⟩

theorem goodComp_append {dirs : List String} {s : String}
    (hd : ∀ c ∈ dirs, GoodComp c) (hs : GoodComp s) :
    ∀ c ∈ dirs ++ [s], GoodComp c := by
  intro c hc
  rcases List.mem_append.mp hc with hc | hc
  · exact hd c hc
  · rw [List.mem_singleton.mp hc]
    exact hs

theorem index_md_eq : ("_index" ++ ".md" : String) = "_index.md" := by decide

/-! ## Claim C1: the three routing rules and URL shape -/

/-- **C1.** For every content path (directory components `dirs`, filename
`s ++ ".md"`), the router applies exactly three mutually exclusive rules in
precedence order: the reserved root index maps to the build root with URL
exactly `/`; any other `_index.md` maps to its parent directory with URL
`/parent/`; any other file maps to the path minus its extension with URL
`/path-minus-extension/`.  Every URL starts and ends with `/`, contains no
double slash, and equals `/` exactly for the root index. -/
theorem claim_C1_router_rules (dirs : List String) (s : String)
    (hd : ∀ c ∈ dirs, GoodComp c) (hs : GoodComp s) :
    ((dirs = [] ∧ s = "_index") → route dirs (s ++ ".md") = ([], "/"))
    ∧ ((dirs ≠ [] ∧ s = "_index") →
        route dirs (s ++ ".md") = (dirs, "/" ++ joinPath dirs ++ "/"))
    ∧ (s ≠ "_index" →
        route dirs (s ++ ".md") = (dirs ++ [s], "/" ++ joinPath (dirs ++ [s]) ++ "/"))
    ∧ (route dirs (s ++ ".md")).2.data.head? = some '/'
    ∧ (route dirs (s ++ ".md")).2.data.getLast? = some '/'
    ∧ NoDoubleSlash (route dirs (s ++ ".md")).2
    ∧ ((route dirs (s ++ ".md")).2 = "/" ↔ dirs = [] ∧ s = "_index") := by
  by_cases hidx : s = "_index"
  · subst hidx
    rw [index_md_eq]
    by_cases hnil : dirs = []
    · subst hnil
      rw [route_root]
      exact ⟨fun _ => rfl, fun hc => absurd rfl hc.1, fun hc => absurd rfl hc,
        by decide, by decide, by decide, by decide⟩
    · rw [route_index hnil]
      refine ⟨fun hc => absurd hc.1 hnil, fun _ => rfl, fun hc => absurd rfl hc,
        slash_wrap_head _, slash_wrap_getLast _, noDoubleSlash_url hd hnil, ?_⟩
      simp only [slash_wrap_ne_root, false_iff]
      intro hc
      exact hnil hc.1
  · have hnm : s ++ ".md" ≠ "_index.md" := fun h => hidx ((index_name_iff s).mp h)
    rw [route_leaf hnm, stripExt_stem s hs.1]
    have hgood := goodComp_append hd hs
    have hne : dirs ++ [s] ≠ [] := by simp
    refine ⟨fun hc => absurd hc.2 hidx, fun hc => absurd hc.2 hidx, fun _ => rfl,
      slash_wrap_head _, slash_wrap_getLast _, noDoubleSlash_url hgood hne, ?_⟩
    simp only [slash_wrap_ne_root, false_iff]
    intro hc
    exact hidx hc.2

/-- Witness for C1: the leaf page `blog/post-one.md` of the spec's
scenario A. -/
theorem claim_C1_router_rules_witness :
    route ["blog"] "post-one.md" = (["blog", "post-one"], "/blog/post-one/")
    ∧ NoDoubleSlash (route ["blog"] "post-one.md").2 := by
  have h := claim_C1_router_rules ["blog"] "post-one" (by decide) (by decide)
  have e : ("post-one" ++ ".md" : String) = "post-one.md" := by decide
  rw [e] at h
  refine ⟨?_, h.2.2.2.2.2.1⟩
  rw [h.2.2.1 (by decide)]
  decide

/-! ## Claim C7: leaf routing strips the extension; URL/outputDir round trip -/

/-- **C7.** For every leaf content path (filename not the reserved index),
routing strips exactly the `.md` extension and appends a trailing slash,
and the output directory's components relative to the build root equal the
URL's path components. -/
theorem claim_C7_leaf_roundtrip (dirs : List String) (s : String)
    (hd : ∀ c ∈ dirs, GoodComp c) (hs : GoodComp s) (hleaf : s ≠ "_index") :
    route dirs (s ++ ".md") = (dirs ++ [s], "/" ++ joinPath (dirs ++ [s]) ++ "/")
    ∧ stripExt (s ++ ".md") = s
    ∧ urlComps (route dirs (s ++ ".md")).2 = (route dirs (s ++ ".md")).1 := by
  have hnm : s ++ ".md" ≠ "_index.md" := fun h => hleaf ((index_name_iff s).mp h)
  have hroute := @route_leaf dirs (s ++ ".md") hnm
  rw [stripExt_stem s hs.1] at hroute
  refine ⟨hroute, stripExt_stem s hs.1, ?_⟩
  rw [hroute]
  exact urlComps_url (goodComp_append hd hs) (by simp)

/-- Witness for C7 at `docs/getting-started.md`. -/
theorem claim_C7_leaf_roundtrip_witness :
    route ["docs"] "getting-started.md"
      = (["docs", "getting-started"], "/docs/getting-started/")
    ∧ urlComps "/docs/getting-started/" = ["docs", "getting-started"] := by
  have h := claim_C7_leaf_roundtrip ["docs"] "getting-started" (by decide) (by decide)
    (by decide)
  have e : ("getting-started" ++ ".md" : String) = "getting-started.md" := by decide
  rw [e] at h
  have h1 : route ["docs"] "getting-started.md"
      = (["docs", "getting-started"], "/docs/getting-started/") := by
    rw [h.1]; decide
  have h3 := h.2.2
  rw [h1] at h3
  exact ⟨h1, h3⟩

/-! ## Claim C5: URL uniqueness (refuted) and the collision characterization -/

/-- **C5** counterexample: the index file `about/_index.md` and the leaf
page `about.md` are distinct source paths that the router maps to the same
URL `/about/` (and the same output directory), so path-derived URLs are
*not* unique. -/
theorem claim_C5_counterexample :
    (route ["about"] "_index.md").2 = (route [] "about.md").2
    ∧ (["about"], "_index.md") ≠ (([] : List String), "about.md") := by
  constructor
  · decide
  · decide

/-- **C5** (amended).  Two distinct content paths receive the same URL
*iff* one of them is an index file whose directory equals the other's
extension-stripped path; in particular distinct paths of the same kind
(both index files, or both leaf pages) always receive distinct URLs. -/
theorem claim_C5_url_collisions (d₁ d₂ : List String) (s₁ s₂ : String)
    (hd₁ : ∀ c ∈ d₁, GoodComp c) (hd₂ : ∀ c ∈ d₂, GoodComp c)
    (hs₁ : GoodComp s₁) (hs₂ : GoodComp s₂)
    (hne : (d₁, s₁) ≠ (d₂, s₂)) :
    (route d₁ (s₁ ++ ".md")).2 = (route d₂ (s₂ ++ ".md")).2
      ↔ ((s₁ = "_index" ∧ s₂ ≠ "_index" ∧ d₁ = d₂ ++ [s₂])
        ∨ (s₂ = "_index" ∧ s₁ ≠ "_index" ∧ d₂ = d₁ ++ [s₁])) := by
  by_cases h1 : s₁ = "_index" <;> by_cases h2 : s₂ = "_index"
  · -- both are index files
    subst h1; subst h2
    rw [index_md_eq]
    have hdne : d₁ ≠ d₂ := fun h => hne (by rw [h])
    simp only [ne_eq, not_true_eq_false, false_and, and_false, or_self, iff_false]
    by_cases hn1 : d₁ = [] <;> by_cases hn2 : d₂ = []
    · exact absurd (hn1.trans hn2.symm) hdne
    · subst hn1
      rw [route_root, route_index hn2]
      exact fun hc => slash_wrap_ne_root _ hc.symm
    · subst hn2
      rw [route_root, route_index hn1]
      exact fun hc => slash_wrap_ne_root _ hc
    · rw [route_index hn1, route_index hn2]
      intro hc
      exact hdne (joinPath_inj hd₁ hd₂ hn1 hn2 (slash_wrap_inj hc))
  · -- s₁ is the index, s₂ a leaf
    subst h1
    rw [index_md_eq]
    have hnm₂ : s₂ ++ ".md" ≠ "_index.md" := fun h => h2 ((index_name_iff s₂).mp h)
    rw [route_leaf hnm₂, stripExt_stem s₂ hs₂.1]
    simp only [h2, not_false_eq_true, true_and, not_true_eq_false, false_and, and_false,
      or_false]
    by_cases hn1 : d₁ = []
    · subst hn1
      rw [route_root]
      constructor
      · intro hc
        exact absurd hc (slash_wrap_ne_root _).symm
      · intro hc
        exact absurd hc.symm (by simp)
    · rw [route_index hn1]
      constructor
      · intro hc
        exact ⟨h2, joinPath_inj hd₁ (goodComp_append hd₂ hs₂) hn1 (by simp)
          (slash_wrap_inj hc)⟩
      · intro hc
        rw [hc.2]
  · -- s₂ is the index, s₁ a leaf
    subst h2
    rw [index_md_eq]
    have hnm₁ : s₁ ++ ".md" ≠ "_index.md" := fun h => h1 ((index_name_iff s₁).mp h)
    rw [route_leaf hnm₁, stripExt_stem s₁ hs₁.1]
    simp only [h1, not_false_eq_true, true_and, not_true_eq_false, false_and, and_false,
      false_or]
    by_cases hn2 : d₂ = []
    · subst hn2
      rw [route_root]
      constructor
      · intro hc
        exact absurd hc (slash_wrap_ne_root _)
      · intro hc
        exact absurd hc.symm (by simp)
    · rw [route_index hn2]
      constructor
      · intro hc
        exact ⟨h1, joinPath_inj hd₂ (goodComp_append hd₁ hs₁) hn2 (by simp)
          (slash_wrap_inj hc.symm)⟩
      · intro hc
        rw [hc.2]
  · -- two leaves
    have hnm₁ : s₁ ++ ".md" ≠ "_index.md" := fun h => h1 ((index_name_iff s₁).mp h)
    have hnm₂ : s₂ ++ ".md" ≠ "_index.md" := fun h => h2 ((index_name_iff s₂).mp h)
    rw [route_leaf hnm₁, route_leaf hnm₂, stripExt_stem s₁ hs₁.1, stripExt_stem s₂ hs₂.1]
    simp only [h1, h2, false_and, or_self, iff_false]
    intro hc
    have hlists := joinPath_inj (goodComp_append hd₁ hs₁) (goodComp_append hd₂ hs₂)
      (by simp) (by simp) (slash_wrap_inj hc)
    obtain ⟨hdd, hss⟩ := concat_comp_inj hlists
    exact hne (by rw [hdd, hss])

/-- Witness for C5 (amended): the collision of `about/_index.md` with
`about.md`, produced by the right-to-left direction of the theorem. -/
theorem claim_C5_url_collisions_witness :
    (route ["about"] ("_index" ++ ".md")).2 = (route [] ("about" ++ ".md")).2 :=
  (claim_C5_url_collisions ["about"] [] "_index" "about" (by decide) (by decide)
    (by decide) (by decide) (by decide)).mpr (Or.inl ⟨rfl, by decide, by decide⟩)

/-! ## Document loader (`parse_markdown`, lines 95–110)

The YAML parser and the markdown renderer are external collaborators; the
loader is parameterised by them.  A front-matter mapping binds string keys
to values that are either an explicit YAML null (Python `None`, modelled
as `none`) or a string scalar (`some s`); other scalar kinds play no role
in the claims under verification. -/

/-- A YAML mapping as produced by `yaml.safe_load` on a metadata block. -/
abbrev FrontMatter := List (String × Option String)

/-- Python `str.lstrip()`: drop leading whitespace. -/
def pyLstrip (s : String) : String := ⟨s.data.dropWhile Char.isWhitespace⟩

/-- Python `s.startswith("---")`. -/
def startsWith3Dashes (s : String) : Bool :=
  match s.data with
  | '-' :: '-' :: '-' :: _ => true
  | _ => false

/-- Split a character list at the first occurrence of `"---"`:
the part before it and the part after it (the separator consumed). -/
def splitDashes : List Char → Option (List Char × List Char)
  | '-' :: '-' :: '-' :: rest => some ([], rest)
  | c :: rest => (splitDashes rest).map fun pr => (c :: pr.1, pr.2)
  | [] => none

/-- Python `raw.split("---", 2)`: split on the first two occurrences of
`"---"`, the remainder kept whole in the last part. -/
def split3 (raw : String) : List String :=
  match splitDashes raw.data with
  | none => [raw]
  | some (a, r₁) =>
    match splitDashes r₁ with
    | none => [⟨a⟩, ⟨r₁⟩]
    | some (b, r₂) => [⟨a⟩, ⟨b⟩, ⟨r₂⟩]

/-- The document loader `parse_markdown` (lines 95–110).  `yaml` stands for
`yaml.safe_load` — an external collaborator that either raises
(`Except.error`), returns a falsy document (`Except.ok none`, turned into
`{}` by the `or {}` in line 105), or returns a mapping — and `mdConvert`
for the markdown renderer.

```
if raw.lstrip().startswith("---"):
    parts = raw.split("---", 2)
    if len(parts) == 3:
        _, fm, body = parts
        frontmatter = yaml.safe_load(fm) or {}
html = md.convert(body)
```

There is no exception handler in the function, so an error from `yaml`
propagates to the caller. -/
def parse_markdown (yaml : String → Except String (Option FrontMatter))
    (mdConvert : String → String) (raw : String) :
    Except String (FrontMatter × String) :=
  if startsWith3Dashes (pyLstrip raw) then
    match split3 raw with
    | [_, fm, body] =>
      match yaml fm with
      | Except.error e => Except.error e
      | Except.ok m => Except.ok (m.getD [], mdConvert body)
    | _ => Except.ok ([], mdConvert raw)
  else Except.ok ([], mdConvert raw)

/-! ## Claim C3: malformed metadata must not abort the build (refuted) -/

/-- **C3** is a code bug: `parse_markdown` has no handler around the YAML
parse, so whenever the collaborator `yaml.safe_load` raises on the
metadata block of a document with a well-formed delimiter structure, the
exception propagates out of the loader (and aborts the build), instead of
degrading to an empty mapping. -/
theorem claim_C3_yaml_error_propagates (yaml : String → Except String (Option FrontMatter))
    (mdConvert : String → String) (raw a fm body e : String)
    (hpre : startsWith3Dashes (pyLstrip raw) = true)
    (hsplit : split3 raw = [a, fm, body])
    (herr : yaml fm = Except.error e) :
    parse_markdown yaml mdConvert raw = Except.error e := by
  unfold parse_markdown
  rw [if_pos hpre, hsplit]
  dsimp only
  rw [herr]

/-- A concrete stand-in for `yaml.safe_load` rejecting one malformed
document (an unclosed flow sequence), as PyYAML does. -/
def yamlStub : String → Except String (Option FrontMatter) := fun s =>
  if s = "\n[oops\n" then Except.error "unclosed flow sequence" else Except.ok none

/-- Witness for C3: the loader propagates the YAML error on the concrete
failing input `"---\n[oops\n---\nbody"`. -/
theorem claim_C3_yaml_error_propagates_witness :
    parse_markdown yamlStub id "---\n[oops\n---\nbody"
      = Except.error "unclosed flow sequence" :=
  claim_C3_yaml_error_propagates yamlStub id "---\n[oops\n---\nbody" "" "\n[oops\n"
    "\nbody" "unclosed flow sequence" (by decide) (by decide) rfl

/-! ## Pages and page assembly (parse-phase loop, lines 121–152) -/

/-- Last-occurrence lookup in a key/value list.  (YAML mappings produced
by `yaml.safe_load` keep the last duplicate of a key, which Python
`dict.get` then finds.)  Result: `none` if the key is absent, `some v`
with the stored value `v` (itself possibly the explicit null `none`)
otherwise. -/
def fmFind (fm : FrontMatter) (k : String) : Option (Option String) :=
  ((fm.filter fun kv => kv.1 == k).getLast?).map Prod.snd

/-- Python `dict.get(key, default)`: the stored value when the key is
present (even when that value is `None`), the default otherwise. -/
def dictGet (fm : FrontMatter) (k : String) (dflt : Option String) : Option String :=
  match fmFind fm k with
  | some v => v
  | none => dflt

/-- `str.replace("-", " ")`. -/
def pyReplaceDash (s : String) : String := ⟨s.data.map fun c => if c = '-' then ' ' else c⟩

/-- Python `str.title()` (ASCII model): the first character of every
maximal run of letters is uppercased, the following ones lowercased. -/
def pyTitleAux : List Char → Bool → List Char
  | [], _ => []
  | c :: cs, prevAlpha =>
    (if c.isAlpha then (if prevAlpha then c.toLower else c.toUpper) else c)
      :: pyTitleAux cs c.isAlpha

/-- Python `str.title()` on a whole string. -/
def pyTitle (s : String) : String := ⟨pyTitleAux s.data false⟩

/-- `title_from_path` (lines 113–114): `path.stem.replace("-", " ").title()`.
Takes the filename component (the stem is the filename minus its
extension). -/
def title_from_path (name : String) : String := pyTitle (pyReplaceDash (stripExt name))

/-- The `Page` dataclass (lines 59–67).  `output_dir` is kept as
components relative to `DIST_DIR`; `title`/`description` are the raw
values Python stores there: a string or `None` (`source` is represented by
its path relative to the content root). -/
structure Page where
  sourceDirs : List String
  sourceName : String
  outputDir : List String
  url : String
  title : Option String
  description : Option String
  contentHtml : String
  «section» : List String
deriving DecidableEq

/-- One discovered content file, with the two collaborator outputs already
attached: `fm` is what `yaml.safe_load` produced for its metadata block
and `html` what the markdown renderer produced for its body (both are
per-file and order-independent, cf. `parse_markdown`). -/
structure SrcFile where
  dirs : List String
  name : String
  fm : FrontMatter
  html : String
deriving DecidableEq

/-- The Page construction of the parse loop (lines 124–152) for one file:
routing rules plus front-matter fallbacks.  `section = rel.parent`. -/
def mkPage (f : SrcFile) : Page :=
  { sourceDirs := f.dirs
    sourceName := f.name
    outputDir := (route f.dirs f.name).1
    url := (route f.dirs f.name).2
    title := dictGet f.fm "title" (some (title_from_path f.name))
    description := dictGet f.fm "description" (some "")
    contentHtml := f.html
    «section» := f.dirs }

/-! ## Claim C6: title/description fallbacks (corrected) -/

/-- **C6** counterexample: front matter can map `title` to an explicit
YAML null (`title:` with no value); `dict.get("title", fallback)` then
returns that `None`, so the assembled Page's title is null — refuting
"every assembled Page has a non-null title". -/
theorem claim_C6_counterexample :
    (mkPage ⟨["blog"], "post-one.md", [("title", none)], "<p>x</p>"⟩).title = none := by
  decide

/-- **C6** (amended).  When the front matter has no `title` key the title
is the filename-derived fallback (hyphens to spaces, title-case); when it
has no `description` key the description is the empty string; and the
title (resp. description) is non-null provided the front matter does not
map `title` (resp. `description`) to an explicit YAML null. -/
theorem claim_C6_fallbacks (f : SrcFile) :
    (fmFind f.fm "title" = none → (mkPage f).title = some (title_from_path f.name))
    ∧ (fmFind f.fm "description" = none → (mkPage f).description = some "")
    ∧ (fmFind f.fm "title" ≠ some none → (mkPage f).title ≠ none)
    ∧ (fmFind f.fm "description" ≠ some none → (mkPage f).description ≠ none) := by
  refine ⟨fun h => by simp [mkPage, dictGet, h], fun h => by simp [mkPage, dictGet, h],
    fun h => ?_, fun h => ?_⟩
  · cases hf : fmFind f.fm "title" with
    | none => simp [mkPage, dictGet, hf]
    | some v =>
      cases v with
      | none => exact absurd hf h
      | some s => simp [mkPage, dictGet, hf]
  · cases hf : fmFind f.fm "description" with
    | none => simp [mkPage, dictGet, hf]
    | some v =>
      cases v with
      | none => exact absurd hf h
      | some s => simp [mkPage, dictGet, hf]

/-- Witness for C6 (amended): scenario A's `blog/post-one.md` with no
front matter gets title "Post One" and empty description. -/
theorem claim_C6_fallbacks_witness :
    (mkPage ⟨["blog"], "post-one.md", [], ""⟩).title = some "Post One"
    ∧ (mkPage ⟨["blog"], "post-one.md", [], ""⟩).description = some "" := by
  have h := claim_C6_fallbacks ⟨["blog"], "post-one.md", [], ""⟩
  refine ⟨?_, h.2.1 (by decide)⟩
  rw [h.1 (by decide)]
  decide

/-! ## The parse phase: pages list and Section Index (lines 121–152) -/

/-- The pages list of one build (`pages.append(page)` over the discovery
order of `CONTENT_DIR.rglob("*.md")`). -/
def pagesOf (files : List SrcFile) : List Page := files.map mkPage

/-- `sections.setdefault(section, []).append(page)` on an insertion-ordered
association list (a Python dict keyed by the section path). -/
def addPage (m : List (List String × List Page)) (p : Page) :
    List (List String × List Page) :=
  if m.any fun e => e.1 == p.«section» then
    m.map fun e => if e.1 == p.«section» then (e.1, e.2 ++ [p]) else e
  else m ++ [(p.«section», [p])]

/-- The Section Index of one build: section key to its pages in discovery
order, keys in first-appearance order. -/
def sectionsOf (files : List SrcFile) : List (List String × List Page) :=
  (pagesOf files).foldl addPage []

/-- Invariant of the Section Index accumulation: every entry holds exactly
the pages of its key in discovery order (and is nonempty), every
accumulated page's section has an entry, and keys are unique. -/
def SecInv (m : List (List String × List Page)) (pgs : List Page) : Prop :=
  (∀ e ∈ m, e.2 = pgs.filter (fun p => p.«section» == e.1) ∧ e.2 ≠ [])
  ∧ (∀ p ∈ pgs, ∃ e ∈ m, e.1 = p.«section»)
  ∧ (m.map Prod.fst).Nodup

theorem secInv_addPage {m : List (List String × List Page)} {pgs : List Page} {p : Page}
    (h : SecInv m pgs) : SecInv (addPage m p) (pgs ++ [p]) := by
  obtain ⟨hent, hcomp, hnd⟩ := h
  unfold addPage
  by_cases hany : (m.any fun e => e.1 == p.«section») = true
  · rw [if_pos hany]
    refine ⟨?_, ?_, ?_⟩
    · intro e' he'
      obtain ⟨e, he, rfl⟩ := List.mem_map.mp he'
      by_cases hk : (e.1 == p.«section») = true
      · rw [if_pos hk]
        have hkey : p.«section» = e.1 := (beq_iff_eq.mp hk).symm
        refine ⟨?_, by simp⟩
        rw [List.filter_append, ← (hent e he).1]
        simp [hkey]
      · rw [if_neg hk]
        refine ⟨?_, (hent e he).2⟩
        rw [List.filter_append, ← (hent e he).1]
        have : (p.«section» == e.1) = false := by
          rw [beq_eq_false_iff_ne]
          intro hc
          exact hk (beq_iff_eq.mpr hc.symm)
        simp [this]
    · intro q hq
      rcases List.mem_append.mp hq with hq | hq
      · obtain ⟨e, he, hke⟩ := hcomp q hq
        by_cases hk : (e.1 == p.«section») = true
        · exact ⟨(e.1, e.2 ++ [p]), List.mem_map.mpr ⟨e, he, by rw [if_pos hk]⟩, hke⟩
        · exact ⟨e, List.mem_map.mpr ⟨e, he, by rw [if_neg hk]⟩, hke⟩
      · rw [List.mem_singleton.mp hq]
        obtain ⟨e, he, hke⟩ := List.any_eq_true.mp hany
        refine ⟨(e.1, e.2 ++ [p]), List.mem_map.mpr ⟨e, he, by rw [if_pos hke]⟩, ?_⟩
        exact beq_iff_eq.mp hke
    · have : (m.map fun e => if (e.1 == p.«section») = true then (e.1, e.2 ++ [p]) else e).map
          Prod.fst = m.map Prod.fst := by
        rw [List.map_map]
        apply List.map_congr_left
        intro e _
        by_cases hk : e.1 = p.«section»
        · simp [hk]
        · simp [hk]
      rw [this]
      exact hnd
  · rw [if_neg hany]
    have hnotin : ∀ e ∈ m, e.1 ≠ p.«section» := by
      intro e he hc
      exact hany (List.any_eq_true.mpr ⟨e, he, beq_iff_eq.mpr hc⟩)
    refine ⟨?_, ?_, ?_⟩
    · intro e' he'
      rcases List.mem_append.mp he' with he' | he'
      · refine ⟨?_, (hent e' he').2⟩
        rw [List.filter_append, ← (hent e' he').1]
        have : (p.«section» == e'.1) = false := by
          rw [beq_eq_false_iff_ne]
          intro hc
          exact hnotin e' he' hc.symm
        simp [this]
      · rw [List.mem_singleton.mp he']
        refine ⟨?_, by simp⟩
        have hnil : pgs.filter (fun q => q.«section» == p.«section») = [] := by
          rw [List.filter_eq_nil_iff]
          intro q hq hc
          obtain ⟨e, he, hke⟩ := hcomp q hq
          exact hnotin e he (hke.trans (beq_iff_eq.mp hc))
        rw [List.filter_append, hnil]
        simp
    · intro q hq
      rcases List.mem_append.mp hq with hq | hq
      · obtain ⟨e, he, hke⟩ := hcomp q hq
        exact ⟨e, List.mem_append_left _ he, hke⟩
      · rw [List.mem_singleton.mp hq]
        exact ⟨(p.«section», [p]), List.mem_append_right _ (List.mem_singleton_self _), rfl⟩
    · rw [List.map_append]
      simp only [List.map_cons, List.map_nil]
      apply List.Nodup.append hnd (List.nodup_singleton _)
      intro k hk hk'
      rw [List.mem_singleton.mp hk'] at hk
      obtain ⟨e, he, hke⟩ := List.mem_map.mp hk
      exact hnotin e he hke

theorem secInv_foldl :
    ∀ (rest : List Page) (m : List (List String × List Page)) (pgs : List Page),
      SecInv m pgs → SecInv (rest.foldl addPage m) (pgs ++ rest)
  | [], m, pgs, h => by simpa using h
  | r :: rest, m, pgs, h => by
    have step := @secInv_addPage m pgs r h
    have ih := secInv_foldl rest (addPage m r) (pgs ++ [r]) step
    simpa using ih

/-- The Section Index of a build satisfies the accumulation invariant. -/
theorem secInv_sectionsOf (files : List SrcFile) : SecInv (sectionsOf files) (pagesOf files) := by
  have h := secInv_foldl (pagesOf files) [] [] ⟨by simp, by simp, by simp⟩
  simpa [sectionsOf] using h

/-- Two Section Index entries with the same key are equal. -/
theorem sections_eq_of_key {files : List SrcFile} {e₁ e₂ : List String × List Page}
    (h₁ : e₁ ∈ sectionsOf files) (h₂ : e₂ ∈ sectionsOf files) (hk : e₁.1 = e₂.1) :
    e₁ = e₂ := by
  have hinv := secInv_sectionsOf files
  have hv₁ := (hinv.1 e₁ h₁).1
  have hv₂ := (hinv.1 e₂ h₂).1
  have : e₁.2 = e₂.2 := by rw [hv₁, hv₂, hk]
  exact Prod.ext hk this

/-! ## The synthetic-index phase (lines 174–219) -/

/-- `index_md.exists()` for a section, with the filesystem taken to be
exactly the discovered content tree: a content file named `_index.md`
exists in directory `sec`.  (All `*.md` files on disk are discovered by
`rglob`, so the disk check and this membership check coincide.) -/
def hasRealIndex (files : List SrcFile) (sec : List String) : Bool :=
  files.any fun f => f.dirs == sec && f.name == "_index.md"

/-- Python `str(...)` applied to a Page title inside an f-string:
`None` prints as `"None"`, a string as itself. -/
def pyStr : Option String → String
  | none => "None"
  | some s => s

/-- The sort key `lambda p: p.title`.  Python `sorted` raises a
`TypeError` when a title is `None`; the theorems about sorting therefore
carry the hypothesis that all children titles are strings, under which the
`getD` default is never exercised. -/
def keyT (p : Page) : String := p.title.getD ""

/-- Code-point lexicographic comparison of character lists: Python's
string order `a <= b`. -/
def charsLe : List Char → List Char → Bool
  | [], _ => true
  | _ :: _, [] => false
  | a :: as, b :: bs => if a < b then true else if b < a then false else charsLe as bs

/-- Python string comparison `a <= b` (code-point lexicographic). -/
def strLe (a b : String) : Bool := charsLe a.data b.data

theorem charsLe_refl : ∀ l : List Char, charsLe l l = true
  | [] => rfl
  | a :: as => by simp [charsLe, charsLe_refl as]

/-- The Python string order is total. -/
theorem charsLe_total : ∀ l₁ l₂ : List Char, charsLe l₁ l₂ = true ∨ charsLe l₂ l₁ = true
  | [], _ => Or.inl rfl
  | _ :: _, [] => Or.inr rfl
  | a :: as, b :: bs => by
    rcases lt_trichotomy a b with h | h | h
    · left
      simp [charsLe, h]
    · subst h
      rcases charsLe_total as bs with h | h
      · left
        simp [charsLe, h]
      · right
        simp [charsLe, h]
    · right
      simp [charsLe, h]

/-- The Python string order is transitive. -/
theorem charsLe_trans : ∀ {l₁ l₂ l₃ : List Char},
    charsLe l₁ l₂ = true → charsLe l₂ l₃ = true → charsLe l₁ l₃ = true
  | [], _, _, _, _ => rfl
  | _ :: _, [], _, h₁, _ => by simp [charsLe] at h₁
  | _ :: _, _ :: _, [], _, h₂ => by simp [charsLe] at h₂
  | a :: as, b :: bs, c :: cs, h₁, h₂ => by
    by_cases hab : a < b
    · by_cases hbc : b < c
      · simp [charsLe, lt_trans hab hbc]
      · by_cases hcb : c < b
        · simp [charsLe, hbc, hcb] at h₂
        · have hbc' : b = c := le_antisymm (not_lt.mp hcb) (not_lt.mp hbc)
          subst hbc'
          simp [charsLe, hab]
    · by_cases hba : b < a
      · simp [charsLe, hab, hba] at h₁
      · have hab' : a = b := le_antisymm (not_lt.mp hba) (not_lt.mp hab)
        subst hab'
        simp only [charsLe, lt_self_iff_false, if_false] at h₁
        by_cases hac : a < c
        · simp [charsLe, hac]
        · by_cases hca : c < a
          · simp [charsLe, hac, hca] at h₂
          · have hac' : a = c := le_antisymm (not_lt.mp hca) (not_lt.mp hac)
            subst hac'
            simp only [charsLe, lt_self_iff_false, if_false] at h₂ ⊢
            exact charsLe_trans h₁ h₂

/-- The Python string order is antisymmetric. -/
theorem charsLe_antisymm : ∀ {l₁ l₂ : List Char},
    charsLe l₁ l₂ = true → charsLe l₂ l₁ = true → l₁ = l₂
  | [], [], _, _ => rfl
  | [], _ :: _, _, h₂ => by simp [charsLe] at h₂
  | _ :: _, [], h₁, _ => by simp [charsLe] at h₁
  | a :: as, b :: bs, h₁, h₂ => by
    by_cases hab : a < b
    · simp [charsLe, hab, asymm hab] at h₂
    · by_cases hba : b < a
      · simp [charsLe, hba, asymm hba] at h₁
      · have hab' : a = b := le_antisymm (not_lt.mp hba) (not_lt.mp hab)
        subst hab'
        simp only [charsLe, lt_self_iff_false, if_false] at h₁ h₂
        rw [charsLe_antisymm h₁ h₂]

/-- `sorted(children, key=lambda p: p.title)` (line 200): a stable sort by
title under Python string comparison.  Insertion sort is used here; any
two stable sorts by the same key produce the same list. -/
def sortByTitle (l : List Page) : List Page :=
  List.insertionSort (fun a b => strLe (keyT a) (keyT b) = true) l

/-- `heading = section.name.replace("-", " ").title()` (line 196);
`section.name` is the final path component. -/
def headingOf (sec : List String) : String := pyTitle (pyReplaceDash (sec.getLastD ""))

/-- One `<li>` line of the synthetic listing (lines 198–201). -/
def listItem (p : Page) : String :=
  "<li><a href=\"" ++ p.url ++ "\">" ++ pyStr p.title ++ "</a></li>"

/-- The listing fragment `synthetic_content` (lines 203–208). -/
def syntheticContent (sec : List String) (children : List Page) : String :=
  "\n<h1>" ++ headingOf sec ++ "</h1>\n<ul>\n"
    ++ String.intercalate "\n" ((sortByTitle children).map listItem)
    ++ "\n</ul>\n"

/-- The template collaborator `template.render(title=…, description=…,
content=…)`, kept abstract; titles and descriptions can be Python `None`
for real pages. -/
abbrev Template := Option String → Option String → String → String

/-- One write of the build: target path (components relative to
`DIST_DIR`) and file contents. -/
abbrev BuildWrite := List String × String

/-- The write phase for real pages (lines 158–168): each page writes the
rendered template to `<output_dir>/index.html`. -/
def pageWrites (tpl : Template) (files : List SrcFile) : List BuildWrite :=
  (pagesOf files).map fun p =>
    (p.outputDir ++ ["index.html"], tpl p.title p.description p.contentHtml)

/-- The body of the synthetic-index loop (lines 174–219) for one Section
Index entry: skip the root, skip when a real `_index.md` exists on disk,
skip when there are no non-index children, else render and write
`<section>/index.html`. -/
def syntheticWrite (tpl : Template) (files : List SrcFile)
    (e : List String × List Page) : Option BuildWrite :=
  if e.1 = [] then none
  else if hasRealIndex files e.1 then none
  else
    let children := e.2.filter fun p => p.sourceName != "_index.md"
    if children = [] then none
    else some (e.1 ++ ["index.html"],
      tpl (some (headingOf e.1)) (some ("Index of " ++ headingOf e.1))
        (syntheticContent e.1 children))

/-- All synthetic-index writes, in Section Index (insertion) order. -/
def syntheticWrites (tpl : Template) (files : List SrcFile) : List BuildWrite :=
  (sectionsOf files).filterMap (syntheticWrite tpl files)

/-! ## Claim C2: exact conditions for synthesizing a section index -/

/-- **C2.** For a section key of the Section Index, a synthetic index page
is written iff (a) the section is not the root, (b) no `_index.md` content
file exists on disk in that directory, and (c) the section has at least
one child page whose source filename is not `_index.md`. -/
theorem claim_C2_synthetic_iff (tpl : Template) (files : List SrcFile)
    (sec : List String) (ps : List Page) (hmem : (sec, ps) ∈ sectionsOf files) :
    (∃ w ∈ syntheticWrites tpl files, w.1 = sec ++ ["index.html"])
      ↔ (sec ≠ []
          ∧ hasRealIndex files sec = false
          ∧ ∃ p ∈ ps, p.sourceName ≠ "_index.md") := by
  constructor
  · rintro ⟨w, hw, hpath⟩
    obtain ⟨e, he, hsome⟩ := List.mem_filterMap.mp hw
    unfold syntheticWrite at hsome
    by_cases h1 : e.1 = []
    · rw [if_pos h1] at hsome
      exact absurd hsome (by simp)
    by_cases h2 : hasRealIndex files e.1 = true
    · rw [if_neg h1, if_pos h2] at hsome
      exact absurd hsome (by simp)
    rw [if_neg h1, if_neg h2] at hsome
    by_cases h3 : e.2.filter (fun p => p.sourceName != "_index.md") = []
    · rw [if_pos h3] at hsome
      exact absurd hsome (by simp)
    rw [if_neg h3] at hsome
    have hkey : e.1 = sec := by
      have := Option.some.inj hsome
      have hp : e.1 ++ ["index.html"] = sec ++ ["index.html"] := by
        rw [← hpath, ← this]
      exact List.append_cancel_right hp
    have hee : e = (sec, ps) := sections_eq_of_key he hmem hkey
    rw [hee] at h1 h2 h3
    refine ⟨h1, by simpa using h2, ?_⟩
    obtain ⟨p, hp⟩ := List.exists_mem_of_ne_nil _ h3
    have := List.mem_filter.mp hp
    exact ⟨p, this.1, by simpa using this.2⟩
  · rintro ⟨h1, h2, p, hp, hpn⟩
    have h3 : ps.filter (fun p => p.sourceName != "_index.md") ≠ [] := by
      intro hc
      have := List.filter_eq_nil_iff.mp hc p hp
      simp at this
      exact hpn this
    refine ⟨(sec ++ ["index.html"],
      tpl (some (headingOf sec)) (some ("Index of " ++ headingOf sec))
        (syntheticContent sec (ps.filter fun p => p.sourceName != "_index.md"))),
      List.mem_filterMap.mpr ⟨(sec, ps), hmem, ?_⟩, rfl⟩
    unfold syntheticWrite
    rw [if_neg h1, if_neg (by simp [h2]), if_neg h3]

/-! ## Claim C4: the synthetic listing is the stable title-sort of the
non-index children -/

theorem orderedInsert_filter_key_eq (p : Page) (t : String) (ht : keyT p = t) :
    ∀ l : List Page,
      (List.orderedInsert (fun a b => strLe (keyT a) (keyT b) = true) p l).filter
          (fun q => keyT q == t)
        = p :: l.filter (fun q => keyT q == t)
  | [] => by simp [List.orderedInsert, ht]
  | b :: bs => by
    by_cases hle : strLe (keyT p) (keyT b) = true
    · rw [List.orderedInsert_of_le (fun a b => strLe (keyT a) (keyT b) = true) bs hle,
        List.filter_cons_of_pos (by simp [ht])]
    · have hstep : List.orderedInsert (fun a b => strLe (keyT a) (keyT b) = true) p (b :: bs)
          = b :: List.orderedInsert (fun a b => strLe (keyT a) (keyT b) = true) p bs := by
        simp only [List.orderedInsert, if_neg hle]
      have hbt : (keyT b == t) = false := by
        rw [beq_eq_false_iff_ne]
        intro hc
        apply hle
        rw [ht, hc]
        exact charsLe_refl _
      rw [hstep, List.filter_cons_of_neg (by simp [hbt]),
        orderedInsert_filter_key_eq p t ht bs, List.filter_cons_of_neg (by simp [hbt])]

theorem orderedInsert_filter_key_ne (p : Page) (t : String) (ht : keyT p ≠ t) :
    ∀ l : List Page,
      (List.orderedInsert (fun a b => strLe (keyT a) (keyT b) = true) p l).filter
          (fun q => keyT q == t)
        = l.filter (fun q => keyT q == t)
  | [] => by simp [List.orderedInsert, ht]
  | b :: bs => by
    by_cases hle : strLe (keyT p) (keyT b) = true
    · rw [List.orderedInsert_of_le (fun a b => strLe (keyT a) (keyT b) = true) bs hle,
        List.filter_cons_of_neg (by simp [ht])]
    · have hstep : List.orderedInsert (fun a b => strLe (keyT a) (keyT b) = true) p (b :: bs)
          = b :: List.orderedInsert (fun a b => strLe (keyT a) (keyT b) = true) p bs := by
        simp only [List.orderedInsert, if_neg hle]
      rw [hstep]
      by_cases hb : (keyT b == t) = true
      · rw [List.filter_cons_of_pos (by simp [hb]), List.filter_cons_of_pos (by simp [hb]),
          orderedInsert_filter_key_ne p t ht bs]
      · rw [List.filter_cons_of_neg (by simpa using hb),
          List.filter_cons_of_neg (by simpa using hb),
          orderedInsert_filter_key_ne p t ht bs]

/-- Stability of the title sort: pages with any given title appear in the
sorted list exactly as they appeared in the input (discovery) order. -/
theorem sortByTitle_filter (t : String) :
    ∀ l : List Page,
      (sortByTitle l).filter (fun q => keyT q == t) = l.filter (fun q => keyT q == t)
  | [] => rfl
  | p :: l => by
    show (List.orderedInsert (fun a b => strLe (keyT a) (keyT b) = true) p
        (sortByTitle l)).filter (fun q => keyT q == t) = _
    by_cases ht : keyT p = t
    · rw [orderedInsert_filter_key_eq p t ht, sortByTitle_filter t l,
        List.filter_cons_of_pos (by simp [ht])]
    · rw [orderedInsert_filter_key_ne p t ht, sortByTitle_filter t l,
        List.filter_cons_of_neg (by simp [ht])]

/-- The title sort is a permutation of its input. -/
theorem sortByTitle_perm (l : List Page) : (sortByTitle l).Perm l :=
  List.perm_insertionSort _ l

/-- The title sort is ascending in the sort key. -/
theorem sortByTitle_sorted (l : List Page) :
    List.Pairwise (fun a b => strLe (keyT a) (keyT b) = true) (sortByTitle l) := by
  haveI : IsTotal Page fun a b => strLe (keyT a) (keyT b) = true :=
    ⟨fun a b => charsLe_total _ _⟩
  haveI : IsTrans Page fun a b => strLe (keyT a) (keyT b) = true :=
    ⟨fun _ _ _ hab hbc => charsLe_trans hab hbc⟩
  exact List.sorted_insertionSort _ l

/-- **C4.** Every generated synthetic index belongs to a Section Index
entry and renders, through the template, a listing whose items are exactly
the section's non-index children sorted by title ascending (a stable sort:
equal titles stay in discovery order), each item a link to the child's URL
with the child's (stringified) title as link text. -/
theorem claim_C4_synthetic_listing (tpl : Template) (files : List SrcFile) (w : BuildWrite)
    (hw : w ∈ syntheticWrites tpl files)
    (hstr : ∀ p ∈ pagesOf files, p.title ≠ none) :
    ∃ sec ps, (sec, ps) ∈ sectionsOf files
      ∧ w.1 = sec ++ ["index.html"]
      ∧ w.2 = tpl (some (headingOf sec)) (some ("Index of " ++ headingOf sec))
          ("\n<h1>" ++ headingOf sec ++ "</h1>\n<ul>\n"
            ++ String.intercalate "\n"
                ((sortByTitle (ps.filter fun p => p.sourceName != "_index.md")).map fun p =>
                  "<li><a href=\"" ++ p.url ++ "\">" ++ pyStr p.title ++ "</a></li>")
            ++ "\n</ul>\n")
      ∧ (sortByTitle (ps.filter fun p => p.sourceName != "_index.md")).Perm
          (ps.filter fun p => p.sourceName != "_index.md")
      ∧ List.Pairwise (fun a b => strLe (keyT a) (keyT b) = true)
          (sortByTitle (ps.filter fun p => p.sourceName != "_index.md"))
      ∧ (∀ p ∈ ps, ∃ t, p.title = some t)
      ∧ ∀ t, (sortByTitle (ps.filter fun p => p.sourceName != "_index.md")).filter
              (fun q => keyT q == t)
            = (ps.filter fun p => p.sourceName != "_index.md").filter
              (fun q => keyT q == t) := by
  obtain ⟨e, he, hsome⟩ := List.mem_filterMap.mp hw
  unfold syntheticWrite at hsome
  by_cases h1 : e.1 = []
  · rw [if_pos h1] at hsome
    exact absurd hsome (by simp)
  by_cases h2 : hasRealIndex files e.1 = true
  · rw [if_neg h1, if_pos h2] at hsome
    exact absurd hsome (by simp)
  rw [if_neg h1, if_neg h2] at hsome
  by_cases h3 : e.2.filter (fun p => p.sourceName != "_index.md") = []
  · rw [if_pos h3] at hsome
    exact absurd hsome (by simp)
  rw [if_neg h3] at hsome
  have hw' := (Option.some.inj hsome).symm
  refine ⟨e.1, e.2, he, by rw [hw'], ?_, sortByTitle_perm _, sortByTitle_sorted _, ?_,
    fun t => sortByTitle_filter t _⟩
  · rw [hw']
    unfold syntheticContent listItem
    rfl
  · intro p hp
    have hmemp : p ∈ pagesOf files := by
      have hv := ((secInv_sectionsOf files).1 e he).1
      rw [hv] at hp
      exact (List.mem_filter.mp hp).1
    cases htp : p.title with
    | none => exact absurd htp (hstr p hmemp)
    | some t => exact ⟨t, rfl⟩

/-! ### Witness fixtures: a concrete template and content tree -/

/-- A concrete template used by the witnesses. -/
def tplW : Template := fun t d c => pyStr t ++ "|" ++ pyStr d ++ "|" ++ c

/-- A concrete content tree: a `blog` section with two titled posts,
discovered with `b.md` before `a.md`. -/
def filesW : List SrcFile :=
  [⟨["blog"], "b.md", [("title", some "Beta")], "hb"⟩,
   ⟨["blog"], "a.md", [("title", some "Alpha")], "ha"⟩]

/-- Witness for C2: the `blog` section of `filesW` (no real `_index.md`,
two non-index children) gets a synthetic index. -/
theorem claim_C2_synthetic_iff_witness :
    ∃ w ∈ syntheticWrites tplW filesW, w.1 = ["blog"] ++ ["index.html"] :=
  (claim_C2_synthetic_iff tplW filesW ["blog"] (pagesOf filesW) (by decide)).mpr
    (by decide)

/-- The synthetic index write generated for `filesW`: children sorted by
title ascending (Alpha before Beta although `b.md` was discovered
first). -/
def wW : BuildWrite :=
  (["blog", "index.html"],
   "Blog|Index of Blog|\n<h1>Blog</h1>\n<ul>\n<li><a href=\"/blog/a/\">Alpha</a></li>\n<li><a href=\"/blog/b/\">Beta</a></li>\n</ul>\n")

/-- Witness for C4 at the concrete build of `filesW`. -/
theorem claim_C4_synthetic_listing_witness :
    wW ∈ syntheticWrites tplW filesW
    ∧ ∃ sec ps, (sec, ps) ∈ sectionsOf filesW ∧ wW.1 = sec ++ ["index.html"] := by
  refine ⟨by decide, ?_⟩
  obtain ⟨sec, ps, hm, hp, _⟩ := claim_C4_synthetic_listing tplW filesW wW (by decide)
    (by decide)
  exact ⟨sec, ps, hm, hp⟩

/-! ## The output tree -/

/-- The output tree: a partial map from an output path (components
relative to `DIST_DIR`) to file contents. -/
abbrev OutTree := List String → Option String

/-- The tree after `rmtree` + `mkdir` (and the initial tree of a fresh
output directory). -/
def emptyTree : OutTree := fun _ => none

/-- `write_text`: one file write into the tree. -/
def applyWrite (t : OutTree) (w : BuildWrite) : OutTree :=
  fun p => if p = w.1 then some w.2 else t p

/-- A sequence of writes applied in order (later writes win). -/
def applyWrites (t : OutTree) (ws : List BuildWrite) : OutTree := ws.foldl applyWrite t

/-- The rightmost write at a path, if any. -/
def findWrite (ws : List BuildWrite) (p : List String) : Option String :=
  match ws with
  | [] => none
  | w :: rest =>
    match findWrite rest p with
    | some v => some v
    | none => if p = w.1 then some w.2 else none

theorem applyWrites_findWrite :
    ∀ (ws : List BuildWrite) (t : OutTree) (p : List String),
      applyWrites t ws p = match findWrite ws p with
        | some v => some v
        | none => t p
  | [], _, _ => rfl
  | w :: ws, t, p => by
    show applyWrites (applyWrite t w) ws p = _
    rw [applyWrites_findWrite ws (applyWrite t w) p]
    show _ = (match (match findWrite ws p with
        | some v => some v
        | none => if p = w.1 then some w.2 else none) with
      | some v => some v
      | none => t p)
    cases hf : findWrite ws p with
    | some v => rfl
    | none =>
      by_cases hp : p = w.1
      · simp [applyWrite, hp]
      · simp [applyWrite, hp]

theorem findWrite_append :
    ∀ (xs ys : List BuildWrite) (p : List String),
      findWrite (xs ++ ys) p = match findWrite ys p with
        | some v => some v
        | none => findWrite xs p
  | [], ys, p => by
    cases hf : findWrite ys p with
    | some v => simp [hf]
    | none => simp [hf, findWrite]
  | x :: xs, ys, p => by
    show (match findWrite (xs ++ ys) p with
      | some v => some v
      | none => if p = x.1 then some x.2 else none) = _
    rw [findWrite_append xs ys p]
    cases hf : findWrite ys p with
    | some v => rfl
    | none => rfl

theorem findWrite_eq_none_iff :
    ∀ (ws : List BuildWrite) (p : List String),
      findWrite ws p = none ↔ ∀ w ∈ ws, w.1 ≠ p
  | [], p => by simp [findWrite]
  | w :: ws, p => by
    show (match findWrite ws p with
      | some v => some v
      | none => if p = w.1 then some w.2 else none) = none ↔ _
    cases hf : findWrite ws p with
    | some v =>
      constructor
      · intro h
        exact absurd h (by simp)
      · intro h
        have hnone := (findWrite_eq_none_iff ws p).mpr fun w' hw' =>
          h w' (List.mem_cons_of_mem _ hw')
        rw [hnone] at hf
        exact absurd hf (by simp)
    | none =>
      by_cases hp : p = w.1
      · rw [if_pos hp]
        constructor
        · intro h
          exact absurd h (by simp)
        · intro h
          exact absurd hp.symm (h w (List.mem_cons_self _ _))
      · rw [if_neg hp]
        constructor
        · intro _ w' hw'
          rcases List.mem_cons.mp hw' with rfl | hw'
          · exact fun hc => hp hc.symm
          · exact (findWrite_eq_none_iff ws p).mp hf w' hw'
        · intro _
          rfl

theorem findWrite_some_mem :
    ∀ {ws : List BuildWrite} {p : List String} {v : String},
      findWrite ws p = some v → (p, v) ∈ ws
  | [], p, v, h => by simp [findWrite] at h
  | w :: ws, p, v, h => by
    rw [show findWrite (w :: ws) p = (match findWrite ws p with
        | some u => some u
        | none => if p = w.1 then some w.2 else none) from rfl] at h
    cases hf : findWrite ws p with
    | some u =>
      rw [hf] at h
      cases h
      exact List.mem_cons_of_mem _ (findWrite_some_mem hf)
    | none =>
      rw [hf] at h
      by_cases hp : p = w.1
      · rw [if_pos hp] at h
        cases h
        exact List.mem_cons.mpr (Or.inl (Prod.ext hp rfl))
      · rw [if_neg hp] at h
        exact absurd h (by simp)

theorem findWrite_of_mem :
    ∀ {ws : List BuildWrite} {p : List String} {v : String},
      (ws.map Prod.fst).Nodup → (p, v) ∈ ws → findWrite ws p = some v
  | [], p, v, _, hmem => absurd hmem (by simp)
  | w :: ws, p, v, hnd, hmem => by
    rw [List.map_cons, List.nodup_cons] at hnd
    show (match findWrite ws p with
      | some u => some u
      | none => if p = w.1 then some w.2 else none) = some v
    rcases List.mem_cons.mp hmem with heq | hmem'
    · have hw1 : w.1 = p := by rw [← heq]
      have hnone : findWrite ws p = none := by
        rw [findWrite_eq_none_iff]
        intro w' hw' hc
        apply hnd.1
        rw [hw1, ← hc]
        exact List.mem_map.mpr ⟨w', hw', rfl⟩
      rw [hnone, if_pos (show p = w.1 by rw [← heq])]
      rw [← heq]
    · rw [findWrite_of_mem hnd.2 hmem']

/-- For write lists with pairwise-distinct target paths, the resulting
lookup is invariant under permutation of the write order. -/
theorem findWrite_perm {ws₁ ws₂ : List BuildWrite} (hperm : ws₁.Perm ws₂)
    (hnd : (ws₁.map Prod.fst).Nodup) (p : List String) :
    findWrite ws₁ p = findWrite ws₂ p := by
  have hnd₂ : (ws₂.map Prod.fst).Nodup := ((hperm.map Prod.fst).nodup_iff).mp hnd
  cases h₁ : findWrite ws₁ p with
  | some v =>
    exact (findWrite_of_mem hnd₂ (hperm.mem_iff.mp (findWrite_some_mem h₁))).symm
  | none =>
    symm
    rw [findWrite_eq_none_iff]
    intro w hw
    exact (findWrite_eq_none_iff ws₁ p).mp h₁ w (hperm.mem_iff.mpr hw)

/-- The final output tree of the pipeline: the real-page writes
(lines 158–168) followed by the synthetic-index writes (lines 174–219),
applied to a freshly cleared output directory. -/
def buildTree (tpl : Template) (files : List SrcFile) : OutTree :=
  applyWrites emptyTree (pageWrites tpl files ++ syntheticWrites tpl files)

/-! ## Claim C8: build determinism (corrected) -/

/-- Two content files in the same section carrying the same front-matter
title, in one discovery order… -/
def filesT1 : List SrcFile :=
  [⟨["blog"], "a.md", [("title", some "Same")], "ha"⟩,
   ⟨["blog"], "b.md", [("title", some "Same")], "hb"⟩]

/-- …and in the opposite discovery order. -/
def filesT2 : List SrcFile :=
  [⟨["blog"], "b.md", [("title", some "Same")], "hb"⟩,
   ⟨["blog"], "a.md", [("title", some "Same")], "ha"⟩]

/-- **C8** counterexample: the same content tree enumerated in two
different orders yields different bytes in the synthetic section index
(the stable sort keeps tied titles in discovery order, so the two links
swap), refuting independence from directory-enumeration order. -/
theorem claim_C8_counterexample :
    filesT1.Perm filesT2
    ∧ buildTree tplW filesT1 ["blog", "index.html"]
        ≠ buildTree tplW filesT2 ["blog", "index.html"] := by
  constructor
  · exact List.Perm.swap _ _ _
  · decide

theorem strLe_antisymm {a b : String} (h₁ : strLe a b = true) (h₂ : strLe b a = true) :
    a = b :=
  String.ext (charsLe_antisymm h₁ h₂)

/-- Two sorted lists that are permutations of each other and have pairwise
distinct keys are equal. -/
theorem sorted_key_nodup_unique :
    ∀ {l₁ l₂ : List Page}, l₁.Perm l₂ →
      List.Pairwise (fun a b => strLe (keyT a) (keyT b) = true) l₁ →
      List.Pairwise (fun a b => strLe (keyT a) (keyT b) = true) l₂ →
      (l₁.map keyT).Nodup → l₁ = l₂
  | [], l₂, hperm, _, _, _ => hperm.nil_eq
  | _ :: _, [], hperm, _, _, _ => absurd hperm (by simp)
  | a :: t₁, b :: t₂, hperm, hs₁, hs₂, hnd => by
    have hab : a = b := by
      rcases List.mem_cons.mp (hperm.mem_iff.mp (List.mem_cons_self a t₁)) with h | ha₂
      · exact h
      rcases List.mem_cons.mp (hperm.symm.mem_iff.mp (List.mem_cons_self b t₂)) with h | hb₁
      · exact h.symm
      have h₁ := (List.pairwise_cons.mp hs₁).1 b hb₁
      have h₂ := (List.pairwise_cons.mp hs₂).1 a ha₂
      have hkey : keyT a = keyT b := strLe_antisymm h₁ h₂
      rw [List.map_cons, List.nodup_cons] at hnd
      exact absurd (List.mem_map.mpr ⟨b, hb₁, hkey.symm⟩) hnd.1
    subst hab
    have ht := sorted_key_nodup_unique hperm.cons_inv
      (List.pairwise_cons.mp hs₁).2 (List.pairwise_cons.mp hs₂).2
      (by rw [List.map_cons, List.nodup_cons] at hnd; exact hnd.2)
    rw [ht]

/-- The target path of a generated synthetic write is its section's
directory plus `index.html`. -/
theorem syntheticWrite_fst {tpl : Template} {files : List SrcFile}
    {e : List String × List Page} {w : BuildWrite}
    (h : syntheticWrite tpl files e = some w) : w.1 = e.1 ++ ["index.html"] := by
  unfold syntheticWrite at h
  by_cases h1 : e.1 = []
  · rw [if_pos h1] at h
    exact absurd h (by simp)
  by_cases h2 : hasRealIndex files e.1 = true
  · rw [if_neg h1, if_pos h2] at h
    exact absurd h (by simp)
  rw [if_neg h1, if_neg h2] at h
  by_cases h3 : e.2.filter (fun p => p.sourceName != "_index.md") = []
  · rw [if_pos h3] at h
    exact absurd h (by simp)
  rw [if_neg h3] at h
  rw [← Option.some.inj h]

/-- The target paths of the synthetic writes are pairwise distinct
(one write per section key, keys unique). -/
theorem syntheticWrites_keys_nodup (tpl : Template) (files : List SrcFile) :
    ((syntheticWrites tpl files).map Prod.fst).Nodup := by
  have hnd := (secInv_sectionsOf files).2.2
  unfold syntheticWrites
  revert hnd
  generalize sectionsOf files = m
  induction m with
  | nil =>
    intro _
    simp
  | cons e m ih =>
    intro hnd
    rw [List.map_cons, List.nodup_cons] at hnd
    rw [List.filterMap_cons]
    cases hg : syntheticWrite tpl files e with
    | none => exact ih hnd.2
    | some w =>
      rw [List.map_cons, List.nodup_cons]
      refine ⟨?_, ih hnd.2⟩
      intro hc
      obtain ⟨w', hw', hww⟩ := List.mem_map.mp hc
      obtain ⟨e', he', hg'⟩ := List.mem_filterMap.mp hw'
      apply hnd.1
      have h1 := syntheticWrite_fst hg
      have h2 := syntheticWrite_fst hg'
      have hk : e.1 = e'.1 := by
        apply List.append_cancel_right
        rw [← h1, ← h2, hww]
      rw [hk]
      exact List.mem_map.mpr ⟨e', he', rfl⟩

/-- The disk check for a real section index only depends on which files
exist, not on their enumeration order. -/
theorem hasRealIndex_perm {f₁ f₂ : List SrcFile} (hperm : f₁.Perm f₂) (sec : List String) :
    hasRealIndex f₁ sec = hasRealIndex f₂ sec := by
  unfold hasRealIndex
  cases h₂ : f₂.any fun f => f.dirs == sec && f.name == "_index.md" with
  | true =>
    obtain ⟨x, hx, hpx⟩ := List.any_eq_true.mp h₂
    exact List.any_eq_true.mpr ⟨x, hperm.mem_iff.mpr hx, hpx⟩
  | false =>
    cases h₁ : f₁.any fun f => f.dirs == sec && f.name == "_index.md" with
    | true =>
      obtain ⟨x, hx, hpx⟩ := List.any_eq_true.mp h₁
      rw [← h₂]
      exact (List.any_eq_true.mpr ⟨x, hperm.mem_iff.mp hx, hpx⟩).symm
    | false => rfl

/-- Every section key of one enumeration's Section Index appears in the
other enumeration's Section Index. -/
theorem sections_key_exists {f₁ f₂ : List SrcFile} (hperm : f₁.Perm f₂)
    {e : List String × List Page} (he : e ∈ sectionsOf f₁) :
    ∃ e' ∈ sectionsOf f₂, e'.1 = e.1 := by
  obtain ⟨hval, hne⟩ := (secInv_sectionsOf f₁).1 e he
  obtain ⟨q, hq⟩ := List.exists_mem_of_ne_nil _ hne
  have hq' : q ∈ (pagesOf f₁).filter (fun p => p.«section» == e.1) := by
    rw [← hval]
    exact hq
  have hmemq := List.mem_filter.mp hq'
  have hkey : q.«section» = e.1 := beq_iff_eq.mp hmemq.2
  have hq₂ : q ∈ pagesOf f₂ := (hperm.map mkPage).mem_iff.mp hmemq.1
  obtain ⟨e', he', hke⟩ := (secInv_sectionsOf f₂).2.1 q hq₂
  exact ⟨e', he', by rw [hke, hkey]⟩

/-- Corresponding Section Index entries of two enumerations of the same
content generate identical synthetic writes, provided the children's
titles are pairwise distinct (the stable sort then has no ties). -/
theorem syntheticWrite_corr (tpl : Template) {f₁ f₂ : List SrcFile} (hperm : f₁.Perm f₂)
    {e₁ e₂ : List String × List Page}
    (h₁ : e₁ ∈ sectionsOf f₁) (h₂ : e₂ ∈ sectionsOf f₂) (hk : e₁.1 = e₂.1)
    (hnt : ((e₁.2.filter fun p => p.sourceName != "_index.md").map keyT).Nodup) :
    syntheticWrite tpl f₁ e₁ = syntheticWrite tpl f₂ e₂ := by
  have hv₁ := ((secInv_sectionsOf f₁).1 e₁ h₁).1
  have hv₂ := ((secInv_sectionsOf f₂).1 e₂ h₂).1
  have hpp : (pagesOf f₁).Perm (pagesOf f₂) := hperm.map mkPage
  have hps : e₁.2.Perm e₂.2 := by
    rw [hv₁, hv₂, ← hk]
    exact hpp.filter _
  have hch : (e₁.2.filter fun p => p.sourceName != "_index.md").Perm
      (e₂.2.filter fun p => p.sourceName != "_index.md") := hps.filter _
  have hsort : sortByTitle (e₁.2.filter fun p => p.sourceName != "_index.md")
      = sortByTitle (e₂.2.filter fun p => p.sourceName != "_index.md") := by
    apply sorted_key_nodup_unique
      ((sortByTitle_perm _).trans (hch.trans (sortByTitle_perm _).symm))
      (sortByTitle_sorted _) (sortByTitle_sorted _)
    exact (((sortByTitle_perm _).map keyT).nodup_iff).mpr hnt
  unfold syntheticWrite
  rw [← hk, hasRealIndex_perm hperm e₁.1]
  by_cases hr : e₁.1 = []
  · rw [if_pos hr, if_pos hr]
  rw [if_neg hr, if_neg hr]
  by_cases hidx : hasRealIndex f₂ e₁.1 = true
  · rw [if_pos hidx, if_pos hidx]
  rw [if_neg hidx, if_neg hidx]
  by_cases hc₁ : e₁.2.filter (fun p => p.sourceName != "_index.md") = []
  · have hc₂ : e₂.2.filter (fun p => p.sourceName != "_index.md") = [] := by
      rw [← List.length_eq_zero, ← hch.length_eq, hc₁]
      rfl
    rw [if_pos hc₁, if_pos hc₂]
  · have hc₂ : e₂.2.filter (fun p => p.sourceName != "_index.md") ≠ [] := by
      intro hnil
      apply hc₁
      rw [← List.length_eq_zero, hch.length_eq, hnil]
      rfl
    rw [if_neg hc₁, if_neg hc₂]
    have hcont : syntheticContent e₁.1 (e₁.2.filter fun p => p.sourceName != "_index.md")
        = syntheticContent e₁.1 (e₂.2.filter fun p => p.sourceName != "_index.md") := by
      unfold syntheticContent
      rw [hsort]
    rw [hcont]

/-- The synthetic-write lookups agree across enumeration orders. -/
theorem findWrite_synthetic_perm (tpl : Template) {f₁ f₂ : List SrcFile}
    (hperm : f₁.Perm f₂)
    (htitles : ∀ e ∈ sectionsOf f₁,
      ((e.2.filter fun p => p.sourceName != "_index.md").map keyT).Nodup)
    (p : List String) :
    findWrite (syntheticWrites tpl f₁) p = findWrite (syntheticWrites tpl f₂) p := by
  cases h₁ : findWrite (syntheticWrites tpl f₁) p with
  | some v =>
    obtain ⟨e₁, he₁, hg₁⟩ := List.mem_filterMap.mp (findWrite_some_mem h₁)
    obtain ⟨e₂, he₂, hk₂⟩ := sections_key_exists hperm he₁
    have hcorr := syntheticWrite_corr tpl hperm he₁ he₂ hk₂.symm (htitles e₁ he₁)
    have hmem₂ : (p, v) ∈ syntheticWrites tpl f₂ :=
      List.mem_filterMap.mpr ⟨e₂, he₂, by rw [← hcorr]; exact hg₁⟩
    exact (findWrite_of_mem (syntheticWrites_keys_nodup tpl f₂) hmem₂).symm
  | none =>
    symm
    rw [findWrite_eq_none_iff]
    intro w hw hc
    obtain ⟨e₂, he₂, hg₂⟩ := List.mem_filterMap.mp hw
    obtain ⟨e₁, he₁, hk₁⟩ := sections_key_exists hperm.symm he₂
    have hcorr := syntheticWrite_corr tpl hperm he₁ he₂ hk₁ (htitles e₁ he₁)
    have hmem₁ : w ∈ syntheticWrites tpl f₁ :=
      List.mem_filterMap.mpr ⟨e₁, he₁, by rw [hcorr]; exact hg₂⟩
    exact (findWrite_eq_none_iff _ p).mp h₁ w hmem₁ hc

/-- Distinct page output directories give pairwise-distinct page write
paths. -/
theorem pageWrites_keys_nodup (tpl : Template) {files : List SrcFile}
    (hout : ((pagesOf files).map Page.outputDir).Nodup) :
    ((pageWrites tpl files).map Prod.fst).Nodup := by
  unfold pageWrites
  rw [List.map_map]
  have heq : (Prod.fst ∘ fun p : Page =>
      (p.outputDir ++ ["index.html"], tpl p.title p.description p.contentHtml))
      = (fun d => d ++ ["index.html"]) ∘ Page.outputDir := rfl
  rw [heq, ← List.map_map]
  exact hout.map (List.append_left_injective _)

/-- The page-write lookups agree across enumeration orders. -/
theorem findWrite_pages_perm (tpl : Template) {f₁ f₂ : List SrcFile} (hperm : f₁.Perm f₂)
    (hout : ((pagesOf f₁).map Page.outputDir).Nodup) (p : List String) :
    findWrite (pageWrites tpl f₁) p = findWrite (pageWrites tpl f₂) p := by
  have hpw : (pageWrites tpl f₁).Perm (pageWrites tpl f₂) := (hperm.map mkPage).map _
  exact findWrite_perm hpw (pageWrites_keys_nodup tpl hout) p

/-- **C8** (amended).  The output tree is a pure function of the discovery
sequence, and it is invariant under permutations of the discovery order
(such as directory-enumeration differences) provided (i) page output
directories are pairwise distinct (no URL collisions, cf. C5), and
(ii) within every section the non-index children's titles are pairwise
distinct (no ties in the stable sort, cf. the counterexample). -/
theorem claim_C8_order_invariance (tpl : Template) (f₁ f₂ : List SrcFile)
    (hperm : f₁.Perm f₂)
    (hout : ((pagesOf f₁).map Page.outputDir).Nodup)
    (htitles : ∀ e ∈ sectionsOf f₁,
      ((e.2.filter fun p => p.sourceName != "_index.md").map keyT).Nodup)
    (p : List String) :
    buildTree tpl f₁ p = buildTree tpl f₂ p := by
  unfold buildTree
  rw [applyWrites_findWrite, applyWrites_findWrite, findWrite_append, findWrite_append,
    findWrite_synthetic_perm tpl hperm htitles p, findWrite_pages_perm tpl hperm hout p]

/-- `filesW` in the opposite enumeration order. -/
def filesWrev : List SrcFile :=
  [⟨["blog"], "a.md", [("title", some "Alpha")], "ha"⟩,
   ⟨["blog"], "b.md", [("title", some "Beta")], "hb"⟩]

/-- Witness for C8 (amended): with distinct titles and distinct output
directories, the two enumeration orders of the two-post blog agree at the
synthetic index path. -/
theorem claim_C8_order_invariance_witness :
    buildTree tplW filesW ["blog", "index.html"]
      = buildTree tplW filesWrev ["blog", "index.html"] :=
  claim_C8_order_invariance tplW filesW filesWrev (List.Perm.swap _ _ _) (by decide)
    (by decide) _

/-! ## Claim C10: the duplicated preliminary build is erased -/

/-- The flat writes of the duplicated preliminary build script (lines
40–46): for every discovered content file, `<relpath>.html` (the `.md`
suffix replaced by `.html`) with a dummy HTML body derived from the stem.

```
for md_file in CONTENT_DIR.glob("**/*.md"):
    rel_path = md_file.relative_to(CONTENT_DIR).with_suffix(".html")
    out_file = DIST_DIR / rel_path
    out_file.write_text(f"<html><body><h1>(md_file.stem)</h1></body></html>")
```
-/
def dummyWrites (files : List SrcFile) : List BuildWrite :=
  files.map fun f =>
    (f.dirs ++ [stripExt f.name ++ ".html"],
     "<html><body><h1>" ++ stripExt f.name ++ "</h1></body></html>")

/-- `shutil.rmtree(DIST_DIR)` followed by `mkdir`: the output root is
recursively removed and recreated empty (lines 32–34 and 75–77). -/
def clearTree (_t : OutTree) : OutTree := emptyTree

/-- The whole script's effect on the output tree: clear (lines 32–34),
duplicated preliminary build (lines 40–46), clear again (lines 75–77),
real page writes (lines 158–168), synthetic index writes
(lines 174–219). -/
def fullScript (tpl : Template) (files : List SrcFile) (t₀ : OutTree) : OutTree :=
  applyWrites (clearTree (applyWrites (clearTree t₀) (dummyWrites files)))
    (pageWrites tpl files ++ syntheticWrites tpl files)

/-- **C10.** The final output tree contains only files written by the real
pipeline: the second clearing of the output root erases everything the
duplicated preliminary build wrote (and any pre-existing state), so the
script's result equals the pipeline applied to an empty tree, and any
path not written by the pipeline — in particular a dummy `<stem>.html`
path — is absent from the final tree. -/
theorem claim_C10_dummy_build_erased (tpl : Template) (files : List SrcFile)
    (t₀ : OutTree) (p : List String) :
    fullScript tpl files t₀ p = buildTree tpl files p
    ∧ (p ∉ (pageWrites tpl files ++ syntheticWrites tpl files).map Prod.fst →
        fullScript tpl files t₀ p = none) := by
  have h1 : fullScript tpl files t₀ p = buildTree tpl files p := rfl
  refine ⟨h1, fun hnp => ?_⟩
  rw [h1]
  unfold buildTree
  rw [applyWrites_findWrite]
  have hnone : findWrite (pageWrites tpl files ++ syntheticWrites tpl files) p = none := by
    rw [findWrite_eq_none_iff]
    intro w hw hc
    exact hnp (List.mem_map.mpr ⟨w, hw, hc⟩)
  rw [hnone]
  rfl

/-- Witness for C10: the single-post blog.  The dummy phase writes
`blog/post-one.html` (visible mid-script), and that file is gone from the
final tree, whatever the output directory held before the build. -/
theorem claim_C10_dummy_build_erased_witness :
    fullScript tplW [⟨["blog"], "post-one.md", [], "h"⟩] (fun _ => some "stale")
      ["blog", "post-one.html"] = none
    ∧ applyWrites (clearTree fun _ => some "stale")
        (dummyWrites [⟨["blog"], "post-one.md", [], "h"⟩]) ["blog", "post-one.html"]
      = some "<html><body><h1>post-one</h1></body></html>" :=
  ⟨(claim_C10_dummy_build_erased tplW [⟨["blog"], "post-one.md", [], "h"⟩]
      (fun _ => some "stale") ["blog", "post-one.html"]).2 (by decide),
   by decide⟩

/-! ## Claim C9: static assets (modelled from the spec) -/

/-- Modelled from the spec: static-asset copying is absent from
`src/build.py` (§6 of the design document describes it as part of the
repository's near-duplicate build scripts, which are not in `src/`).
Per the spec, the optional static directory, when present, is copied
verbatim — file for file, preserving relative paths — into the output
root strictly before any page is written, and colliding paths may later
be overwritten by page output.  `staticFiles` lists the asset directory's
contents as (relative path, bytes) pairs; the copy is the corresponding
write sequence placed before all page and synthetic-index writes. -/
def buildWithStatic (tpl : Template) (staticFiles : List BuildWrite)
    (files : List SrcFile) : OutTree :=
  applyWrites emptyTree
    (staticFiles ++ (pageWrites tpl files ++ syntheticWrites tpl files))

/-- **C9.** Every static asset ends up verbatim in the final tree at its
relative path — unless the pipeline writes that same path, in which case
the final contents are exactly the pipeline's (page output, written
later, takes precedence over the colliding asset). -/
theorem claim_C9_static_copy (tpl : Template) (staticFiles : List BuildWrite)
    (files : List SrcFile) (p : List String) (v : String)
    (hnd : (staticFiles.map Prod.fst).Nodup) :
    ((p, v) ∈ staticFiles →
        p ∉ (pageWrites tpl files ++ syntheticWrites tpl files).map Prod.fst →
        buildWithStatic tpl staticFiles files p = some v)
    ∧ (p ∈ (pageWrites tpl files ++ syntheticWrites tpl files).map Prod.fst →
        buildWithStatic tpl staticFiles files p = buildTree tpl files p) := by
  constructor
  · intro hmem hnp
    unfold buildWithStatic
    rw [applyWrites_findWrite, findWrite_append]
    have hnone : findWrite (pageWrites tpl files ++ syntheticWrites tpl files) p
        = none := by
      rw [findWrite_eq_none_iff]
      intro w hw hc
      exact hnp (List.mem_map.mpr ⟨w, hw, hc⟩)
    rw [hnone, findWrite_of_mem hnd hmem]
  · intro hp
    unfold buildWithStatic buildTree
    rw [applyWrites_findWrite, applyWrites_findWrite, findWrite_append]
    obtain ⟨w, hw, hc⟩ := List.mem_map.mp hp
    cases hf : findWrite (pageWrites tpl files ++ syntheticWrites tpl files) p with
    | some u => rfl
    | none => exact absurd hc ((findWrite_eq_none_iff _ p).mp hf w hw)

/-- A concrete static-asset directory: a stylesheet, plus an asset that
collides with the synthetic index path of the `blog` section. -/
def staticW : List BuildWrite :=
  [(["css", "site.css"], "bodycss"), (["blog", "index.html"], "stale-asset")]

/-- Witness for C9: the stylesheet is copied verbatim; the colliding asset
is overwritten by the pipeline's synthetic index. -/
theorem claim_C9_static_copy_witness :
    buildWithStatic tplW staticW filesW ["css", "site.css"] = some "bodycss"
    ∧ buildWithStatic tplW staticW filesW ["blog", "index.html"]
        = buildTree tplW filesW ["blog", "index.html"] :=
  ⟨(claim_C9_static_copy tplW staticW filesW ["css", "site.css"] "bodycss" (by decide)).1
      (by decide) (by decide),
   (claim_C9_static_copy tplW staticW filesW ["blog", "index.html"] "" (by decide)).2
      (by decide)⟩

-- Sanity checks of the router on the spec's end-to-end scenario A.
example : route [] "_index.md" = ([], "/") := by decide
example : route ["blog"] "_index.md" = (["blog"], "/blog/") := by decide
example : route ["blog"] "post-one.md" = (["blog", "post-one"], "/blog/post-one/") := by
  decide
example : route ["a", "b"] "_index.md" = (["a", "b"], "/a/b/") := by decide
example : stripExt "post-one.md" = "post-one" := by decide
example : stripExt "archive.tar.md" = "archive.tar" := by decide

end Heckla
